import Mathlib

/-!
Verification of the Backlog wiki markup converter
(`src/utils/backlogWikiParser.ts`).

The converter is a pure string-to-string pipeline:
table stage, then fenced code blocks, then inline code spans, then
basic block markdown.  We embed it shallowly over `List Char`
(JavaScript strings become character lists; `String.prototype.trim`,
`split`, `slice`, and the three global regex replaces are modelled by
executable functions below), and prove the frozen claims about it.
-/

namespace BacklogWiki

/-- The JavaScript whitespace class used by `String.prototype.trim`:
tab, LF, VT, FF, CR, space, NBSP, BOM, the Unicode space separators,
and the line/paragraph separators. -/
def isJsWs (c : Char) : Bool :=
  c = ' ' || c = '\t' || c = '\n' || c = '\r' || c = '\x0b' || c = '\x0c' ||
  c = '\u00A0' || c = '\uFEFF' || c = '\u1680' ||
  ('\u2000' ≤ c && c ≤ '\u200A') ||
  c = '\u2028' || c = '\u2029' || c = '\u202F' || c = '\u205F' || c = '\u3000'

/-- `String.prototype.trim` on a character list: drop leading and
trailing JavaScript whitespace. -/
def jsTrimList (l : List Char) : List Char :=
  ((l.dropWhile isJsWs).reverse.dropWhile isJsWs).reverse

/-- `String.prototype.trim`. -/
def jsTrim (s : String) : String :=
  ⟨jsTrimList s.data⟩

/-- `text.split(sep)` for a single-character separator, as in
`text.split('\n')`: the empty string splits to one empty field. -/
def splitChar (sep : Char) : List Char → List (List Char)
  | [] => [[]]
  | c :: rest =>
    if c = sep then [] :: splitChar sep rest
    else (c :: (splitChar sep rest).headI) :: (splitChar sep rest).tail

/-- `array.join('\n')`. -/
def joinLines : List (List Char) → List Char
  | [] => []
  | [l] => l
  | l :: l2 :: ls => l ++ '\n' :: joinLines (l2 :: ls)

/-- `text.split('||')`: split on the two-character separator, scanning
left to right over non-overlapping occurrences. -/
def splitDbl : List Char → List (List Char)
  | '|' :: '|' :: rest =>
    match splitDbl rest with
    | [] => [[]]
    | t => [] :: t
  | c :: rest =>
    match splitDbl rest with
    | [] => [[]]
    | h :: t => (c :: h) :: t
  | [] => [[]]

/-- `s.slice(a, -n)` after an `s.slice(a)`: remove the last `n`
characters (clamped at zero, as JavaScript `slice` clamps). -/
def dropLastN (n : Nat) (l : List Char) : List Char :=
  l.take (l.length - n)

/-- Whether `pat` occurs as a contiguous substring. -/
def containsSub (pat : List Char) : List Char → Bool
  | [] => pat.isEmpty
  | c :: rest => pat.isPrefixOf (c :: rest) || containsSub pat rest

/-- Find the first occurrence of `pat`: returns the part before the
occurrence and the part after it.  This is the lazy-quantifier search
used by the non-greedy regex bodies. -/
def findSub (pat : List Char) : List Char → Option (List Char × List Char)
  | [] => if pat.isEmpty then some ([], []) else none
  | c :: rest =>
    if pat.isPrefixOf (c :: rest) then some ([], (c :: rest).drop pat.length)
    else (findSub pat rest).map fun p => (c :: p.1, p.2)

/-- One character of the DOM text-node escape.  `escapeHtml` in the
source assigns `div.textContent` and reads back `div.innerHTML`; per
the HTML fragment-serialization algorithm a text node escapes `&`,
`<`, `>` and U+00A0 and serializes every other character verbatim.
Modelled from the spec: the browser DOM is outside this repository;
the spec states the contract is `equivalent to assigning the text as a
text node and reading back the serialized markup`. -/
def escapeHtmlChar (c : Char) : List Char :=
  if c = '&' then "&amp;".data
  else if c = '<' then "&lt;".data
  else if c = '>' then "&gt;".data
  else if c = '\u00A0' then "&nbsp;".data
  else [c]

/-- DOM text-node escaping of a whole character list. -/
def escapeHtmlList : List Char → List Char
  | [] => []
  | c :: rest => escapeHtmlChar c ++ escapeHtmlList rest

/-- The `escapeHtml` helper of the source, on `String`. -/
def escapeHtml (s : String) : String :=
  ⟨escapeHtmlList s.data⟩

/-- ASCII word character, the regex `\w` class. -/
def isWordChar (c : Char) : Bool :=
  ('a' ≤ c && c ≤ 'z') || ('A' ≤ c && c ≤ 'Z') || ('0' ≤ c && c ≤ '9') || c = '_'

/-- Header-row test of `parseTable`:
`line.startsWith('||') && line.endsWith('||')`. -/
def isHeaderLine (line : List Char) : Bool :=
  "||".data.isPrefixOf line && "||".data.isSuffixOf line

/-- Data-row test of `parseTable`:
`line.startsWith('|') && line.endsWith('|')`. -/
def isDataLine (line : List Char) : Bool :=
  "|".data.isPrefixOf line && "|".data.isSuffixOf line

/-- One `<th>` cell as pushed by the header-row branch. -/
def thTag (cell : List Char) : List Char :=
  "<th class=\"backlog-th\">".data ++ jsTrimList cell ++ "</th>".data

/-- One `<td>` cell as pushed by the data-row branch. -/
def tdTag (cell : List Char) : List Char :=
  "<td class=\"backlog-td\">".data ++ jsTrimList cell ++ "</td>".data

/-- The line loop of `parseTable`: walks the split lines with the
`inTable` flag, accumulating the pushed strings in order. -/
def parseTableGo : List (List Char) → Bool → List (List Char)
  | [], inTable =>
    if inTable then ["</tbody>".data, "</table>".data] else []
  | l :: rest, inTable =>
    if isHeaderLine (jsTrimList l) then
      (if inTable then [] else ["<table class=\"backlog-table\">".data, "<thead>".data]) ++
      ["<tr>".data] ++
      (splitDbl (dropLastN 2 ((jsTrimList l).drop 2))).map thTag ++
      ["</tr>".data, "</thead>".data, "<tbody>".data] ++
      parseTableGo rest true
    else if isDataLine (jsTrimList l) then
      (if inTable then [] else ["<table class=\"backlog-table\">".data, "<tbody>".data]) ++
      ["<tr>".data] ++
      (splitChar '|' (dropLastN 1 ((jsTrimList l).drop 1))).map tdTag ++
      ["</tr>".data] ++
      parseTableGo rest true
    else
      (if inTable then ["</tbody>".data, "</table>".data] else []) ++
      [jsTrimList l] ++
      parseTableGo rest false

/-- `parseTable` on a character list: split on newlines, run the line
loop starting outside a table, join the pushed strings with newlines. -/
def parseTableList (l : List Char) : List Char :=
  joinLines (parseTableGo (splitChar '\n' l) false)

/-- The `parseTable` stage, on `String`. -/
def parseTable (s : String) : String :=
  ⟨parseTableList s.data⟩

/-- The emitted html for one fenced code block:
`<pre class="backlog-code-block"><code class="language-{lang}">` with
the body trimmed and then DOM-escaped. -/
def codeBlockHtml (lang body : List Char) : List Char :=
  "<pre class=\"backlog-code-block\"><code class=\"language-".data ++ lang ++
  "\">".data ++ escapeHtmlList (jsTrimList body) ++ "</code></pre>".data

/-- Parse the optional `:language` group and the closing `\x7d` of the
fenced-code opener, after the literal `\x7bcode` has been consumed.
Returns the language (defaulted to `text` when the group is omitted,
as `language || 'text'` does) and the remaining input. -/
def pcbHeader : List Char → Option (List Char × List Char)
  | [] => none
  | c :: r =>
    if c = ':' then
      if r.takeWhile isWordChar = [] then none
      else if (r.dropWhile isWordChar).headI = '\x7d' ∧ r.dropWhile isWordChar ≠ [] then
        some (r.takeWhile isWordChar, (r.dropWhile isWordChar).tail)
      else none
    else if c = '\x7d' then some ("text".data, r)
    else none

/-- One attempted match of the fenced-code regex at the current
position: the literal `\x7bcode`, the optional `:(\w+)`, `\x7d`, then
the lazy body up to the first `\x7b/code\x7d`.  On success returns the
replacement text and the input after the match. -/
def pcbTryMatch (s : List Char) : Option (List Char × List Char) :=
  if "\x7bcode".data.isPrefixOf s then
    match pcbHeader (s.drop 5) with
    | some (lang, r3) =>
      match findSub "\x7b/code\x7d".data r3 with
      | some (body, after) => some (codeBlockHtml lang body, after)
      | none => none
    | none => none
  else none

/-- Global regex replace: at each position try one match; on success
emit the replacement and resume after the match, otherwise emit the
character and advance one position.  `fuel` bounds the recursion and
is instantiated with the input length, which suffices because every
step consumes at least one character. -/
def replScanF (tryM : List Char → Option (List Char × List Char)) :
    Nat → List Char → List Char
  | 0, l => l
  | _ + 1, [] => []
  | fuel + 1, c :: rest =>
    match tryM (c :: rest) with
    | some (out, after) => out ++ replScanF tryM fuel after
    | none => c :: replScanF tryM fuel rest

/-- The `parseCodeBlock` stage on a character list. -/
def parseCodeBlockList (l : List Char) : List Char :=
  replScanF pcbTryMatch l.length l

/-- The `parseCodeBlock` stage, on `String`. -/
def parseCodeBlock (s : String) : String :=
  ⟨parseCodeBlockList s.data⟩

/-- One attempted match of the inline-code regex `&code\(([^)]+)\);`
at the current position. -/
def icTryMatch (s : List Char) : Option (List Char × List Char) :=
  if "&code(".data.isPrefixOf s then
    if (s.drop 6).takeWhile (fun c => !(c = ')')) = [] then none
    else
      match (s.drop 6).dropWhile (fun c => !(c = ')')) with
      | ')' :: ';' :: after =>
        some ("<code class=\"backlog-inline-code\">".data ++
              escapeHtmlList ((s.drop 6).takeWhile (fun c => !(c = ')'))) ++
              "</code>".data, after)
      | _ => none
  else none

/-- The `parseInlineCode` stage on a character list. -/
def parseInlineCodeList (l : List Char) : List Char :=
  replScanF icTryMatch l.length l

/-- The `parseInlineCode` stage, on `String`. -/
def parseInlineCode (s : String) : String :=
  ⟨parseInlineCodeList s.data⟩

/-- Characters the regex `.` does not match (the bold pattern
`\*\*(.*?)\*\*` is not in dotall mode). -/
def isDotExcl (c : Char) : Bool :=
  c = '\n' || c = '\r' || c = '\u2028' || c = '\u2029'

/-- Lazy search for the closing `**` of a bold span: the inner group
`(.*?)` may cross only `.`-matchable characters. -/
def findStars : List Char → Option (List Char × List Char)
  | '*' :: '*' :: rest => some ([], rest)
  | c :: rest =>
    if isDotExcl c then none
    else (findStars rest).map fun p => (c :: p.1, p.2)
  | [] => none

/-- One attempted match of the bold regex `\*\*(.*?)\*\*`. -/
def boldTryMatch : List Char → Option (List Char × List Char)
  | c1 :: c2 :: rest =>
    if c1 = '*' then
      if c2 = '*' then
        match findStars rest with
        | some (inner, after) =>
          some ("<strong>".data ++ inner ++ "</strong>".data, after)
        | none => none
      else none
    else none
  | _ => none

/-- The per-line bold substitution
`line.replace(/\*\*(.*?)\*\*/g, '<strong>$1</strong>')`. -/
def boldRepl (l : List Char) : List Char :=
  replScanF boldTryMatch l.length l

/-- The spacer emitted for blank lines. -/
def spacerDiv : List Char :=
  "<div class=\"backlog-spacer\"></div>".data

/-- One line of `parseBasicMarkdown`: bold substitution first, then
classification.  The heading and list prefixes are tested on the
original line while the blank and `<` tests use the substituted line,
exactly as in the source. -/
def markdownLine (line : List Char) : List Char :=
  if "# ".data.isPrefixOf line then
    "<h1 class=\"backlog-h1\">".data ++ (boldRepl line).drop 2 ++ "</h1>".data
  else if "## ".data.isPrefixOf line then
    "<h2 class=\"backlog-h2\">".data ++ (boldRepl line).drop 3 ++ "</h2>".data
  else if "### ".data.isPrefixOf line then
    "<h3 class=\"backlog-h3\">".data ++ (boldRepl line).drop 4 ++ "</h3>".data
  else if "- ".data.isPrefixOf line then
    "<p class=\"backlog-list\">\u2022 ".data ++ (boldRepl line).drop 2 ++ "</p>".data
  else if jsTrimList (boldRepl line) = [] then spacerDiv
  else if "<".data.isPrefixOf (boldRepl line) then boldRepl line
  else "<p class=\"backlog-paragraph\">".data ++ boldRepl line ++ "</p>".data

/-- The `parseBasicMarkdown` stage on a character list. -/
def parseBasicMarkdownList (l : List Char) : List Char :=
  joinLines ((splitChar '\n' l).map markdownLine)

/-- The `parseBasicMarkdown` stage, on `String`. -/
def parseBasicMarkdown (s : String) : String :=
  ⟨parseBasicMarkdownList s.data⟩

/-- The whole pipeline of `parseBacklogWiki`: tables, then fenced code
blocks, then inline code, then basic markdown. -/
def parseBacklogWikiList (l : List Char) : List Char :=
  parseBasicMarkdownList (parseInlineCodeList (parseCodeBlockList (parseTableList l)))

/-- The exported `parseBacklogWiki` entry point, on `String`. -/
def parseBacklogWiki (s : String) : String :=
  ⟨parseBacklogWikiList s.data⟩

/-! Helper lemmas about splitting, joining, trimming and substring
search, used to settle the claims. -/

theorem splitChar_ne_nil (sep : Char) (l : List Char) : splitChar sep l ≠ [] := by
  cases l with
  | nil => simp [splitChar]
  | cons c rest =>
    simp only [splitChar]
    split <;> simp

theorem mem_splitChar_not_sep (sep : Char) (l : List Char) :
    ∀ x ∈ splitChar sep l, sep ∉ x := by
  induction l with
  | nil =>
    intro x hx
    simp [splitChar] at hx
    simp [hx]
  | cons c rest ih =>
    intro x hx
    simp only [splitChar] at hx
    cases h : splitChar sep rest with
    | nil => exact absurd h (splitChar_ne_nil sep rest)
    | cons hd tl =>
      rw [h] at hx
      by_cases hc : c = sep
      · rw [if_pos hc] at hx
        rcases List.mem_cons.mp hx with h1 | h1
        · simp [h1]
        · exact ih x (h ▸ h1)
      · rw [if_neg hc] at hx
        simp only [List.headI_cons, List.tail_cons] at hx
        rcases List.mem_cons.mp hx with h1 | h1
        · subst h1
          intro hmem
          rcases List.mem_cons.mp hmem with h2 | h2
          · exact hc h2.symm
          · exact ih hd (h ▸ List.mem_cons_self hd tl) h2
        · exact ih x (h ▸ List.mem_cons_of_mem hd h1)

theorem joinLines_splitChar (l : List Char) :
    joinLines (splitChar '\n' l) = l := by
  induction l with
  | nil => rfl
  | cons c rest ih =>
    simp only [splitChar]
    cases h : splitChar '\n' rest with
    | nil => exact absurd h (splitChar_ne_nil _ _)
    | cons hd tl =>
      rw [h] at ih
      by_cases hc : c = '\n'
      · rw [if_pos hc, hc]
        simpa [joinLines] using ih
      · rw [if_neg hc]
        simp only [List.headI_cons, List.tail_cons]
        cases tl with
        | nil => simpa [joinLines] using congrArg (c :: ·) ih
        | cons t2 ts =>
          simp only [joinLines] at ih ⊢
          simp [← ih]

theorem splitChar_no_sep (sep : Char) (m : List Char) (hm : sep ∉ m) :
    splitChar sep m = [m] := by
  induction m with
  | nil => rfl
  | cons c m2 ih =>
    have hc : ¬ c = sep := fun e => hm (by simp [e])
    simp only [splitChar, ih (fun h2 => hm (List.mem_cons_of_mem _ h2))]
    simp [hc]

theorem splitChar_append_sep (sep : Char) (m r : List Char) (hm : sep ∉ m) :
    splitChar sep (m ++ sep :: r) = m :: splitChar sep r := by
  induction m with
  | nil =>
    simp [splitChar]
  | cons c m2 ih =>
    have hc : ¬ c = sep := fun e => hm (by simp [e])
    have ih2 := ih (fun h2 => hm (List.mem_cons_of_mem _ h2))
    simp only [List.cons_append, splitChar, List.append_eq, ih2, if_neg hc,
      List.headI_cons, List.tail_cons]

theorem splitChar_joinLines (ms : List (List Char)) (h1 : ∀ m ∈ ms, '\n' ∉ m)
    (h2 : ms ≠ []) : splitChar '\n' (joinLines ms) = ms := by
  induction ms with
  | nil => exact absurd rfl h2
  | cons m ms2 ih =>
    cases ms2 with
    | nil => simpa [joinLines] using splitChar_no_sep '\n' m (h1 m (by simp))
    | cons m2 ms3 =>
      simp only [joinLines]
      rw [splitChar_append_sep '\n' m _ (h1 m (by simp))]
      rw [ih (fun x hx => h1 x (List.mem_cons_of_mem _ hx)) (by simp)]

theorem joinLines_append (xs ys : List (List Char)) (hx : xs ≠ []) (hy : ys ≠ []) :
    joinLines (xs ++ ys) = joinLines xs ++ '\n' :: joinLines ys := by
  induction xs with
  | nil => exact absurd rfl hx
  | cons a xs2 ih =>
    cases xs2 with
    | nil =>
      cases ys with
      | nil => exact absurd rfl hy
      | cons b ys2 => simp [joinLines]
    | cons a2 xs3 =>
      have h2 := ih (by simp)
      simp only [List.cons_append] at h2 ⊢
      simp only [joinLines, h2, List.append_assoc, List.cons_append]

theorem dropWhile_head_false {p : Char → Bool} :
    ∀ {l : List Char} {c : Char} {t : List Char},
      l.dropWhile p = c :: t → p c = false := by
  intro l
  induction l with
  | nil => intro c t h; simp [List.dropWhile] at h
  | cons a l2 ih =>
    intro c t h
    rw [List.dropWhile_cons] at h
    split at h
    · exact ih h
    · rename_i hpa
      cases h
      exact Bool.eq_false_iff.mpr hpa

theorem jsTrimList_head_not_ws {l : List Char} {c : Char} {t : List Char}
    (h : jsTrimList l = c :: t) : isJsWs c = false := by
  unfold jsTrimList at h
  have hlast : ((l.dropWhile isJsWs).reverse.dropWhile isJsWs).getLast? = some c := by
    rw [← List.head?_reverse, h]
    rfl
  obtain ⟨pre, hpre⟩ := List.dropWhile_suffix (l := (l.dropWhile isJsWs).reverse) isJsWs
  have h2 : (l.dropWhile isJsWs).reverse.getLast? = some c := by
    rw [← hpre, List.getLast?_append, hlast]
    rfl
  have h3 : (l.dropWhile isJsWs).head? = some c := by
    rw [← List.head?_reverse] at h2
    simpa using h2
  cases hd : l.dropWhile isJsWs with
  | nil => rw [hd] at h3; cases h3
  | cons d dt =>
    rw [hd] at h3
    simp only [List.head?_cons, Option.some.injEq] at h3
    exact h3 ▸ dropWhile_head_false hd

theorem jsTrimList_idem_nil {l : List Char} (h : jsTrimList (jsTrimList l) = []) :
    jsTrimList l = [] := by
  cases hm : jsTrimList l with
  | nil => rfl
  | cons c t =>
    have hc : isJsWs c = false := jsTrimList_head_not_ws hm
    rw [hm] at h
    unfold jsTrimList at h
    rw [List.dropWhile_cons, if_neg (by simp [hc])] at h
    rw [List.reverse_eq_nil_iff] at h
    have h2 := List.dropWhile_eq_nil_iff.mp h c (by simp)
    simp [hc] at h2

theorem mem_jsTrimList {x : Char} {l : List Char} (h : x ∈ jsTrimList l) : x ∈ l := by
  unfold jsTrimList at h
  rw [List.mem_reverse] at h
  have h2 := (List.dropWhile_sublist _).subset h
  rw [List.mem_reverse] at h2
  exact (List.dropWhile_sublist _).subset h2

theorem findSub_eq {pat : List Char} : ∀ {l b a : List Char},
    findSub pat l = some (b, a) → l = b ++ pat ++ a := by
  intro l
  induction l with
  | nil =>
    intro b a h
    simp only [findSub] at h
    split at h
    · rename_i hp
      cases h
      simp [List.isEmpty_iff.mp hp]
    · cases h
  | cons c rest ih =>
    intro b a h
    simp only [findSub] at h
    split at h
    · rename_i hp
      obtain ⟨t, ht⟩ := List.isPrefixOf_iff_prefix.mp hp
      cases h
      rw [← ht, List.drop_left]
      simp
    · cases hfs : findSub pat rest with
      | none => rw [hfs] at h; cases h
      | some p =>
        cases p with
        | mk b2 a2 =>
          rw [hfs] at h
          injection h with h3
          rw [Prod.mk.injEq] at h3
          obtain ⟨hb, ha⟩ := h3
          subst hb
          subst ha
          have h2 := ih hfs
          simp [h2]

theorem isPrefixOf_append_sep {sep : Char} {r : List Char} :
    ∀ (pat m : List Char), sep ∉ pat → pat.isPrefixOf (m ++ sep :: r) = true →
      pat.isPrefixOf m = true := by
  intro pat
  induction pat with
  | nil =>
    intro m _ _
    cases m with
    | nil => rfl
    | cons c m2 => rfl
  | cons p pat2 ih =>
    intro m hs h
    cases m with
    | nil =>
      exfalso
      simp only [List.nil_append, List.isPrefixOf, Bool.and_eq_true, beq_iff_eq] at h
      exact hs (h.1 ▸ List.mem_cons_self p pat2)
    | cons c m2 =>
      simp only [List.cons_append, List.isPrefixOf, Bool.and_eq_true, beq_iff_eq] at h
      simp only [List.isPrefixOf, Bool.and_eq_true, beq_iff_eq]
      exact ⟨h.1, ih m2 (fun hx => hs (List.mem_cons_of_mem _ hx)) h.2⟩

theorem containsSub_append_sep {pat : List Char} {sep : Char} (hs : sep ∉ pat)
    (hne : pat ≠ []) :
    ∀ (m r : List Char), containsSub pat m = false → containsSub pat r = false →
      containsSub pat (m ++ sep :: r) = false := by
  intro m
  induction m with
  | nil =>
    intro r _ hr
    simp only [List.nil_append, containsSub, Bool.or_eq_false_iff]
    refine ⟨?_, hr⟩
    cases pat with
    | nil => exact absurd rfl hne
    | cons p pat2 =>
      by_contra hcon
      rw [Bool.not_eq_false] at hcon
      simp only [List.isPrefixOf, Bool.and_eq_true, beq_iff_eq] at hcon
      exact hs (hcon.1 ▸ List.mem_cons_self p pat2)
  | cons c m2 ih =>
    intro r hm hr
    simp only [containsSub, Bool.or_eq_false_iff] at hm
    simp only [List.cons_append, containsSub, Bool.or_eq_false_iff]
    constructor
    · by_contra hcon
      rw [Bool.not_eq_false] at hcon
      have h2 : pat.isPrefixOf ((c :: m2) ++ sep :: r) = true := by
        simpa using hcon
      rw [isPrefixOf_append_sep pat (c :: m2) hs h2] at hm
      exact Bool.true_eq_false ▸ (by simpa using hm.1)
    · exact ih r hm.2 hr

theorem containsSub_joinLines {pat : List Char} (hs : '\n' ∉ pat) (hne : pat ≠ []) :
    ∀ (ms : List (List Char)), (∀ m ∈ ms, containsSub pat m = false) →
      containsSub pat (joinLines ms) = false := by
  intro ms
  induction ms with
  | nil =>
    intro _
    simp only [joinLines, containsSub]
    cases pat with
    | nil => exact absurd rfl hne
    | cons p pat2 => rfl
  | cons m ms2 ih =>
    intro h
    cases ms2 with
    | nil => simpa [joinLines] using h m (by simp)
    | cons m2 ms3 =>
      simp only [joinLines]
      exact containsSub_append_sep hs hne m _ (h m (by simp))
        (ih (fun x hx => h x (List.mem_cons_of_mem _ hx)))

/-! Lemmas about the regex-replace scanners. -/

theorem replScanF_id {tryM : List Char → Option (List Char × List Char)}
    {pat : List Char} (hp : ∀ s, tryM s ≠ none → pat.isPrefixOf s = true) :
    ∀ (fuel : Nat) (l : List Char), containsSub pat l = false →
      replScanF tryM fuel l = l := by
  intro fuel
  induction fuel with
  | zero => intro l _; rfl
  | succ f ih =>
    intro l hl
    cases l with
    | nil => rfl
    | cons c rest =>
      simp only [containsSub, Bool.or_eq_false_iff] at hl
      cases ht : tryM (c :: rest) with
      | some p =>
        have h2 := hp (c :: rest) (by simp [ht])
        rw [h2] at hl
        exact absurd hl.1 (by simp)
      | none =>
        simp only [replScanF, ht]
        rw [ih rest hl.2]

theorem pcbTryMatch_prefix :
    ∀ s, pcbTryMatch s ≠ none → "\x7bcode".data.isPrefixOf s = true := by
  intro s h
  unfold pcbTryMatch at h
  by_cases hp : "\x7bcode".data.isPrefixOf s = true
  · exact hp
  · simp [hp] at h

theorem icTryMatch_prefix :
    ∀ s, icTryMatch s ≠ none → "&code(".data.isPrefixOf s = true := by
  intro s h
  unfold icTryMatch at h
  by_cases hp : "&code(".data.isPrefixOf s = true
  · exact hp
  · simp [hp] at h

theorem boldTryMatch_prefix :
    ∀ s, boldTryMatch s ≠ none → "**".data.isPrefixOf s = true := by
  intro s h
  match s with
  | [] => exact absurd rfl h
  | [c] => exact absurd rfl h
  | c1 :: c2 :: rest =>
    simp only [boldTryMatch] at h
    by_cases h1 : c1 = '*'
    · by_cases h2 : c2 = '*'
      · subst h1
        subst h2
        rw [List.isPrefixOf_iff_prefix]
        exact ⟨rest, rfl⟩
      · rw [if_pos h1, if_neg h2] at h
        exact absurd rfl h
    · rw [if_neg h1] at h
      exact absurd rfl h

/-! Lemmas about the table stage. -/

theorem parseTableGo_passthrough :
    ∀ (ls : List (List Char)),
      (∀ l ∈ ls, isHeaderLine (jsTrimList l) = false ∧ isDataLine (jsTrimList l) = false) →
      parseTableGo ls false = ls.map jsTrimList := by
  intro ls
  induction ls with
  | nil => intro _; rfl
  | cons l rest ih =>
    intro h
    obtain ⟨h1, h2⟩ := h l (by simp)
    simp only [parseTableGo, h1, h2, List.map_cons]
    simp [ih (fun x hx => h x (List.mem_cons_of_mem _ hx))]

theorem exists_append_of_tail {X rest cl : List (List Char)}
    (h : ∃ pl, rest = pl ++ cl) : ∃ pl, X ++ rest = pl ++ cl := by
  obtain ⟨pl, hp⟩ := h
  exact ⟨X ++ pl, by rw [hp, List.append_assoc]⟩

theorem parseTableGo_nil (b : Bool) :
    parseTableGo [] b = if b then ["</tbody>".data, "</table>".data] else [] := rfl

theorem parseTableGo_cons (l : List Char) (rest : List (List Char)) (b : Bool) :
    parseTableGo (l :: rest) b =
      if isHeaderLine (jsTrimList l) then
        (if b then [] else ["<table class=\"backlog-table\">".data, "<thead>".data]) ++
        ["<tr>".data] ++
        (splitDbl (dropLastN 2 ((jsTrimList l).drop 2))).map thTag ++
        ["</tr>".data, "</thead>".data, "<tbody>".data] ++
        parseTableGo rest true
      else if isDataLine (jsTrimList l) then
        (if b then [] else ["<table class=\"backlog-table\">".data, "<tbody>".data]) ++
        ["<tr>".data] ++
        (splitChar '|' (dropLastN 1 ((jsTrimList l).drop 1))).map tdTag ++
        ["</tr>".data] ++
        parseTableGo rest true
      else
        (if b then ["</tbody>".data, "</table>".data] else []) ++
        [jsTrimList l] ++
        parseTableGo rest false := rfl

theorem parseTableGo_ends_closed :
    ∀ (ls : List (List Char)) (b : Bool) (t : List Char),
      ls.getLast? = some t →
      (isHeaderLine (jsTrimList t) || isDataLine (jsTrimList t)) = true →
      ∃ pl, parseTableGo ls b = pl ++ ["</tbody>".data, "</table>".data] := by
  intro ls
  induction ls with
  | nil => intro b t h _; cases h
  | cons l rest ih =>
    intro b t hlast hcond
    cases rest with
    | nil =>
      have hl : l = t := by simpa using hlast
      subst hl
      by_cases hh : isHeaderLine (jsTrimList l) = true
      · rw [parseTableGo_cons, if_pos hh, parseTableGo_nil, if_pos rfl]
        simp only [List.append_assoc]
        exact exists_append_of_tail (exists_append_of_tail (exists_append_of_tail
          (exists_append_of_tail ⟨[], rfl⟩)))
      · have hd : isDataLine (jsTrimList l) = true := by
          have hh2 : isHeaderLine (jsTrimList l) = false := Bool.eq_false_iff.mpr hh
          simpa [hh2] using hcond
        rw [parseTableGo_cons, if_neg hh, if_pos hd, parseTableGo_nil, if_pos rfl]
        simp only [List.append_assoc]
        exact exists_append_of_tail (exists_append_of_tail (exists_append_of_tail
          (exists_append_of_tail ⟨[], rfl⟩)))
    | cons l2 rest2 =>
      have hlast2 : (l2 :: rest2).getLast? = some t := by
        rwa [List.getLast?_cons_cons] at hlast
      by_cases hh : isHeaderLine (jsTrimList l) = true
      · have h2 := ih true t hlast2 hcond
        rw [parseTableGo_cons, if_pos hh]
        simp only [List.append_assoc]
        exact exists_append_of_tail (exists_append_of_tail (exists_append_of_tail
          (exists_append_of_tail h2)))
      · by_cases hd : isDataLine (jsTrimList l) = true
        · have h2 := ih true t hlast2 hcond
          rw [parseTableGo_cons, if_neg hh, if_pos hd]
          simp only [List.append_assoc]
          exact exists_append_of_tail (exists_append_of_tail (exists_append_of_tail
            (exists_append_of_tail h2)))
        · have h2 := ih false t hlast2 hcond
          rw [parseTableGo_cons, if_neg hh, if_neg hd]
          simp only [List.append_assoc]
          exact exists_append_of_tail (exists_append_of_tail h2)

theorem joinLines_append_pair (pl : List (List Char)) (a b : List Char) :
    ∃ r, joinLines (pl ++ [a, b]) = r ++ (a ++ '\n' :: b) := by
  induction pl with
  | nil => exact ⟨[], by simp [joinLines]⟩
  | cons x pl2 ih =>
    obtain ⟨r, hr⟩ := ih
    cases hq : pl2 ++ [a, b] with
    | nil => simp at hq
    | cons y ys =>
      refine ⟨x ++ '\n' :: r, ?_⟩
      have hshape : (x :: pl2) ++ [a, b] = x :: y :: ys := by rw [List.cons_append, hq]
      rw [hshape]
      simp only [joinLines]
      rw [← hq, hr]
      simp [List.append_assoc]

theorem parseTableGo_headerA_cons (rest : List (List Char)) (b : Bool) :
    parseTableGo ("||A||".data :: rest) b =
      (if b then ([] : List (List Char))
       else ["<table class=\"backlog-table\">".data, "<thead>".data]) ++
      ["<tr>".data, "<th class=\"backlog-th\">A</th>".data, "</tr>".data,
       "</thead>".data, "<tbody>".data] ++ parseTableGo rest true := by
  have h1 : isHeaderLine (jsTrimList "||A||".data) = true := by decide
  have h2 : (splitDbl (dropLastN 2 ((jsTrimList "||A||".data).drop 2))).map thTag =
      ["<th class=\"backlog-th\">A</th>".data] := by decide
  simp only [parseTableGo, h1, if_true, h2]
  cases b <;> simp

theorem claim4_aux : ∀ m : Nat,
    List.count "<tbody>".data (parseTableGo (List.replicate m "||A||".data) true) = m ∧
    List.count "<thead>".data (parseTableGo (List.replicate m "||A||".data) true) = 0 := by
  intro m
  induction m with
  | zero => exact ⟨by decide, by decide⟩
  | succ k ih =>
    rw [List.replicate_succ, parseTableGo_headerA_cons]
    simp only [if_true, List.nil_append]
    rw [List.count_append, List.count_append, ih.1, ih.2]
    constructor
    · have : List.count "<tbody>".data
          ["<tr>".data, "<th class=\"backlog-th\">A</th>".data, "</tr>".data,
           "</thead>".data, "<tbody>".data] = 1 := by decide
      rw [this]
      omega
    · have : List.count "<thead>".data
          ["<tr>".data, "<th class=\"backlog-th\">A</th>".data, "</tr>".data,
           "</thead>".data, "<tbody>".data] = 0 := by decide
      rw [this]

/-! Lemmas about the markdown stage. -/

theorem boldRepl_id {l : List Char} (h : containsSub "**".data l = false) :
    boldRepl l = l :=
  replScanF_id boldTryMatch_prefix l.length l h

theorem markdownLine_plain (l : List Char)
    (h3 : containsSub "**".data (jsTrimList l) = false)
    (h4 : "# ".data.isPrefixOf (jsTrimList l) = false)
    (h5 : "## ".data.isPrefixOf (jsTrimList l) = false)
    (h6 : "### ".data.isPrefixOf (jsTrimList l) = false)
    (h7 : "- ".data.isPrefixOf (jsTrimList l) = false)
    (h8 : "<".data.isPrefixOf (jsTrimList l) = false) :
    markdownLine (jsTrimList l) =
      if jsTrimList l = [] then spacerDiv
      else "<p class=\"backlog-paragraph\">".data ++ jsTrimList l ++ "</p>".data := by
  have hb : boldRepl (jsTrimList l) = jsTrimList l := boldRepl_id h3
  by_cases hnil : jsTrimList l = []
  · rw [hnil]
    decide
  · have hnil2 : ¬ jsTrimList (jsTrimList l) = [] :=
      fun hcon => hnil (jsTrimList_idem_nil hcon)
    simp only [markdownLine, hb, h4, h5, h6, h7, h8]
    simp [hnil, hnil2]

/-! The claims. -/

/-- C1 counterexample: the claim says `parse("**bold** text")` is
`<strong>bold</strong> text` wrapped in a paragraph tag.  In fact the
bold substitution runs before the `<`-prefix test and the substituted
line starts with `<`, so the line is passed through without any
paragraph wrapper. -/
theorem claim1_counterexample :
    parseBacklogWiki "**bold** text" = "<strong>bold</strong> text" ∧
    "<p".data.isPrefixOf ("<strong>bold</strong> text").data = false := by
  exact ⟨by decide, by decide⟩

/-- C1 amended: `parse("**bold** text")` yields `<strong>bold</strong>`
concatenated with ` text`, but the result is not wrapped in a
paragraph tag (the substituted line already starts with `<`). -/
theorem claim1_theorem :
    parseBacklogWiki "**bold** text" = "<strong>bold</strong>" ++ " text" := by
  decide

/-- C2 counterexample: the claim says the empty input maps to the
empty output; in fact `"".split('\n')` is `[""]`, the single empty
line is classified blank, and the output is one spacer element. -/
theorem claim2_counterexample :
    parseBacklogWiki "" = "<div class=\"backlog-spacer\"></div>" ∧
    ("<div class=\"backlog-spacer\"></div>" : String) ≠ "" := by
  exact ⟨by decide, by decide⟩

/-- C2 amended: the empty string input produces exactly one blank-line
spacer element. -/
theorem claim2_theorem :
    parseBacklogWiki "" = "<div class=\"backlog-spacer\"></div>" := by
  decide

/-- C3 counterexample: the claim says quote characters are replaced by
their entity equivalents; DOM text-node serialization leaves quotes
unescaped, so the escaping primitive returns a quote unchanged. -/
theorem claim3_counterexample :
    escapeHtml "\"" = "\"" ∧ ("\"" : String) ≠ "&quot;" := by
  exact ⟨by decide, by decide⟩

/-- C3 amended: the escaping primitive replaces `&`, `<`, `>` (and
U+00A0) by their entity equivalents and maps every other character,
quotes included, to itself; it distributes over concatenation. -/
theorem claim3_theorem :
    escapeHtml "&" = "&amp;" ∧ escapeHtml "<" = "&lt;" ∧ escapeHtml ">" = "&gt;" ∧
    escapeHtml "\u00A0" = "&nbsp;" ∧
    (∀ c : Char, c ≠ '&' → c ≠ '<' → c ≠ '>' → c ≠ '\u00A0' →
      escapeHtmlList [c] = [c]) ∧
    (∀ l1 l2 : List Char,
      escapeHtmlList (l1 ++ l2) = escapeHtmlList l1 ++ escapeHtmlList l2) := by
  refine ⟨by decide, by decide, by decide, by decide, ?_, ?_⟩
  · intro c h1 h2 h3 h4
    simp [escapeHtmlList, escapeHtmlChar, h1, h2, h3, h4]
  · intro l1 l2
    induction l1 with
    | nil => rfl
    | cons c rest ih => simp [escapeHtmlList, ih]

/-- C3 witness: the per-character clause applied at the double-quote
character, whose three hypotheses hold by computation. -/
theorem claim3_witness : escapeHtmlList ['\"'] = ['\"'] :=
  claim3_theorem.2.2.2.2.1 '\"' (by decide) (by decide) (by decide) (by decide)

/-- C4 counterexample: the claim says one `<thead>` open tag is
emitted per header line; for two consecutive header rows the table
stage emits a single `<thead>` open tag, not two. -/
theorem claim4_counterexample :
    List.count "<thead>".data
      (parseTableGo (splitChar '\n' "||A||\n||B||".data) false) = 1 ∧
    (1 : Nat) ≠ 2 := by
  exact ⟨by decide, by decide⟩

/-- C4 amended: per header row the stage emits a `</thead>` close and
a fresh `<tbody>` open (so `n` consecutive header rows yield `n`
`<tbody>` open tags), while the `<thead>` open tag is emitted only
once, when the table is first opened. -/
theorem claim4_theorem : ∀ n : Nat, 1 ≤ n →
    List.count "<tbody>".data
      (parseTableGo (List.replicate n "||A||".data) false) = n ∧
    List.count "<thead>".data
      (parseTableGo (List.replicate n "||A||".data) false) = 1 := by
  intro n hn
  cases n with
  | zero => exact absurd hn (by decide)
  | succ k =>
    rw [List.replicate_succ, parseTableGo_headerA_cons]
    have haux := claim4_aux k
    rw [if_neg (by decide), List.append_assoc, List.count_append, List.count_append,
      List.count_append, List.count_append, haux.1, haux.2]
    constructor
    · have e1 : List.count "<tbody>".data
          ["<table class=\"backlog-table\">".data, "<thead>".data] = 0 := by decide
      have e2 : List.count "<tbody>".data
          ["<tr>".data, "<th class=\"backlog-th\">A</th>".data, "</tr>".data,
           "</thead>".data, "<tbody>".data] = 1 := by decide
      rw [e1, e2]
      omega
    · have e1 : List.count "<thead>".data
          ["<table class=\"backlog-table\">".data, "<thead>".data] = 1 := by decide
      have e2 : List.count "<thead>".data
          ["<tr>".data, "<th class=\"backlog-th\">A</th>".data, "</tr>".data,
           "</thead>".data, "<tbody>".data] = 0 := by decide
      rw [e1, e2]

/-- C4 witness: the amended count statement at two consecutive header
rows, where the hypothesis `1 ≤ 2` holds by computation. -/
theorem claim4_witness :
    List.count "<tbody>".data
      (parseTableGo (List.replicate 2 "||A||".data) false) = 2 ∧
    List.count "<thead>".data
      (parseTableGo (List.replicate 2 "||A||".data) false) = 1 :=
  claim4_theorem 2 (by decide)

/-- C5 counterexample: the claim says a non-table line passes through
this stage with its text unaltered; the stage pushes the trimmed line,
so surrounding whitespace is removed. -/
theorem claim5_counterexample :
    parseTable "  x  " = "x" ∧ ("x" : String) ≠ "  x  " := by
  exact ⟨by decide, by decide⟩

/-- C9: the converter is total and deterministic: every input string
is mapped to an output string, and equal inputs give equal outputs. -/
theorem claim9_theorem :
    (∀ s : String, ∃ out : String, parseBacklogWiki s = out) ∧
    (∀ s t : String, s = t → parseBacklogWiki s = parseBacklogWiki t) :=
  ⟨fun s => ⟨parseBacklogWiki s, rfl⟩, fun _ _ h => congrArg _ h⟩

/-- C9 witness: determinism applied at a concrete input. -/
theorem claim9_witness : parseBacklogWiki "|a|" = parseBacklogWiki "|a|" :=
  claim9_theorem.2 "|a|" "|a|" rfl

theorem parseTableList_single (s : List Char) (hnl : '\n' ∉ s)
    (hh : isHeaderLine (jsTrimList s) = false) (hd : isDataLine (jsTrimList s) = false) :
    parseTableList s = jsTrimList s := by
  unfold parseTableList
  rw [splitChar_no_sep '\n' s hnl, parseTableGo_cons, if_neg (by simp [hh]),
    if_neg (by simp [hd]), parseTableGo_nil]
  simp [joinLines]

/-- C5 amended: the table stage passes a non-table line through after
whitespace-trimming it (closing any open table first); apart from the
trimming the text is unaltered. -/
theorem claim5_theorem :
    (∀ s : String, '\n' ∉ s.data →
      isHeaderLine (jsTrimList s.data) = false →
      isDataLine (jsTrimList s.data) = false →
      parseTable s = jsTrim s) ∧
    (∀ s : String, '\n' ∉ s.data →
      isHeaderLine (jsTrimList s.data) = false →
      isDataLine (jsTrimList s.data) = false →
      parseTableList ("|a|\n".data ++ s.data) =
        "<table class=\"backlog-table\">".data ++ '\n' :: "<tbody>".data ++
        '\n' :: "<tr>".data ++ '\n' :: "<td class=\"backlog-td\">a</td>".data ++
        '\n' :: "</tr>".data ++ '\n' :: "</tbody>".data ++ '\n' :: "</table>".data ++
        '\n' :: jsTrimList s.data) := by
  constructor
  · intro s hnl hh hd
    show (⟨parseTableList s.data⟩ : String) = ⟨jsTrimList s.data⟩
    rw [parseTableList_single s.data hnl hh hd]
  · intro s hnl hh hd
    unfold parseTableList
    have hshape : "|a|\n".data ++ s.data = "|a|".data ++ '\n' :: s.data := rfl
    rw [hshape, splitChar_append_sep '\n' "|a|".data s.data (by decide),
      splitChar_no_sep '\n' s.data hnl]
    rw [parseTableGo_cons, if_neg (by decide), if_pos (by decide), if_neg (by decide)]
    rw [parseTableGo_cons, if_neg (by simp [hh]), if_neg (by simp [hd]),
      if_pos rfl, parseTableGo_nil, if_neg (by decide)]
    have hcells : (splitChar '|' (dropLastN 1 ((jsTrimList "|a|".data).drop 1))).map tdTag =
        ["<td class=\"backlog-td\">a</td>".data] := by decide
    rw [hcells]
    simp [joinLines, List.append_assoc]

/-- C5 witness: the amended passthrough statement at a concrete
non-table line, whose hypotheses hold by computation. -/
theorem claim5_witness :
    parseTable "hello" = jsTrim "hello" ∧
    parseTableList ("|a|\n".data ++ "hello".data) =
      "<table class=\"backlog-table\">".data ++ '\n' :: "<tbody>".data ++
      '\n' :: "<tr>".data ++ '\n' :: "<td class=\"backlog-td\">a</td>".data ++
      '\n' :: "</tr>".data ++ '\n' :: "</tbody>".data ++ '\n' :: "</table>".data ++
      '\n' :: jsTrimList "hello".data :=
  ⟨claim5_theorem.1 "hello" (by decide) (by decide) (by decide),
   claim5_theorem.2 "hello" (by decide) (by decide) (by decide)⟩

/-- C8: when the last line of the input is a table header or data row
(the input ends while a table is open), the table stage appends the
closing tags, so its output ends with the two closing tags. -/
theorem claim8_theorem : ∀ (s : String) (t : List Char),
    (splitChar '\n' s.data).getLast? = some t →
    (isHeaderLine (jsTrimList t) || isDataLine (jsTrimList t)) = true →
    ∃ r, (parseTable s).data = r ++ "</tbody>\n</table>".data := by
  intro s t h1 h2
  obtain ⟨pl, hpl⟩ := parseTableGo_ends_closed (splitChar '\n' s.data) false t h1 h2
  obtain ⟨r, hr⟩ := joinLines_append_pair pl "</tbody>".data "</table>".data
  refine ⟨r, ?_⟩
  show parseTableList s.data = r ++ "</tbody>\n</table>".data
  unfold parseTableList
  rw [hpl, hr]
  rfl

/-- C8 witness: the table-closing statement at a single data row. -/
theorem claim8_witness :
    ∃ r, (parseTable "|a|").data = r ++ "</tbody>\n</table>".data :=
  claim8_theorem "|a|" "|a|".data (by decide) (by decide)

theorem joinLines_three_mid (t1 t2 t3 t4 t5 t6 : List Char)
    (cells : List (List Char)) (hc : cells ≠ []) :
    joinLines (t1 :: t2 :: t3 :: (cells ++ [t4, t5, t6])) =
      t1 ++ '\n' :: t2 ++ '\n' :: t3 ++ '\n' :: joinLines cells ++
      '\n' :: t4 ++ '\n' :: t5 ++ '\n' :: t6 := by
  show joinLines ([t1, t2, t3] ++ (cells ++ [t4, t5, t6])) = _
  rw [joinLines_append [t1, t2, t3] (cells ++ [t4, t5, t6]) (by simp) (by simp),
    joinLines_append cells [t4, t5, t6] hc (by simp)]
  simp [joinLines, List.append_assoc]

/-- C10: a data row reached while no table is open makes the stage
emit the table and tbody open tags before the row, and the resulting
table for a lone data row contains no `<thead>` at all. -/
theorem claim10_theorem :
    (∀ s : String, '\n' ∉ s.data →
      isHeaderLine (jsTrimList s.data) = false →
      isDataLine (jsTrimList s.data) = true →
      (parseTable s).data =
        "<table class=\"backlog-table\">".data ++ '\n' :: "<tbody>".data ++
        '\n' :: "<tr>".data ++
        '\n' :: joinLines ((splitChar '|' (dropLastN 1 ((jsTrimList s.data).drop 1))).map tdTag) ++
        '\n' :: "</tr>".data ++ '\n' :: "</tbody>".data ++ '\n' :: "</table>".data) ∧
    containsSub "<thead".data (parseTableList "|a|b|".data) = false := by
  constructor
  · intro s hnl hh hd
    show parseTableList s.data = _
    unfold parseTableList
    rw [splitChar_no_sep '\n' s.data hnl, parseTableGo_cons, if_neg (by simp [hh]),
      if_pos hd, if_neg (by decide), parseTableGo_nil, if_pos rfl]
    have hc : (splitChar '|' (dropLastN 1 ((jsTrimList s.data).drop 1))).map tdTag ≠ [] := by
      intro hcon
      rw [List.map_eq_nil_iff] at hcon
      exact splitChar_ne_nil '|' _ hcon
    refine Eq.trans (congrArg joinLines (by simp [List.append_assoc]))
      (joinLines_three_mid "<table class=\"backlog-table\">".data "<tbody>".data
        "<tr>".data "</tr>".data "</tbody>".data "</table>".data _ hc)
  · decide

/-- C10 witness: the data-row statement at the concrete input with two
cells and no header. -/
theorem claim10_witness :
    (parseTable "|a|b|").data =
      "<table class=\"backlog-table\">".data ++ '\n' :: "<tbody>".data ++
      '\n' :: "<tr>".data ++
      '\n' :: joinLines ((splitChar '|' (dropLastN 1 ((jsTrimList "|a|b|".data).drop 1))).map tdTag) ++
      '\n' :: "</tr>".data ++ '\n' :: "</tbody>".data ++ '\n' :: "</table>".data :=
  claim10_theorem.1 "|a|b|" (by decide) (by decide) (by decide)

theorem pcbHeader_eq_some {x lang r3 : List Char} (h : pcbHeader x = some (lang, r3)) :
    (∃ r, x = ':' :: r ∧ lang = r.takeWhile isWordChar ∧
      r.dropWhile isWordChar = '\x7d' :: r3) ∨
    (x = '\x7d' :: r3 ∧ lang = "text".data) := by
  cases x with
  | nil => cases h
  | cons c r =>
    simp only [pcbHeader] at h
    by_cases hc : c = ':'
    · rw [if_pos hc] at h
      by_cases hw : r.takeWhile isWordChar = []
      · rw [if_pos hw] at h; cases h
      · rw [if_neg hw] at h
        by_cases hg : (r.dropWhile isWordChar).headI = '\x7d' ∧ r.dropWhile isWordChar ≠ []
        · rw [if_pos hg] at h
          injection h with h2
          rw [Prod.mk.injEq] at h2
          obtain ⟨hl, ht⟩ := h2
          left
          refine ⟨r, by rw [hc], hl.symm, ?_⟩
          obtain ⟨hg1, hg2⟩ := hg
          cases hdw : r.dropWhile isWordChar with
          | nil => exact absurd hdw hg2
          | cons d dt =>
            rw [hdw] at hg1 ht
            simp only [List.headI_cons] at hg1
            simp only [List.tail_cons] at ht
            rw [hg1, ht]
        · rw [if_neg hg] at h; cases h
    · rw [if_neg hc] at h
      by_cases hc2 : c = '\x7d'
      · rw [if_pos hc2] at h
        injection h with h2
        rw [Prod.mk.injEq] at h2
        obtain ⟨hl, hr⟩ := h2
        right
        exact ⟨by rw [hc2, hr], hl.symm⟩
      · rw [if_neg hc2] at h; cases h

/-- C7: every successful fenced-code match decomposes the input as the
opener (with explicit language, or omitted language defaulted to
`text`), a body and the closer, and its replacement is the
`<pre><code class="language-{lang}">` block whose body is trimmed and
then escaped; in particular `parse("\x7bcode:js\x7dx=1\x7b/code\x7d")`
produces the `js` code block with body `x=1`. -/
theorem claim7_theorem :
    (∀ s out after : List Char, pcbTryMatch s = some (out, after) →
      ∃ lang body,
        out = "<pre class=\"backlog-code-block\"><code class=\"language-".data ++ lang ++
          "\">".data ++ escapeHtmlList (jsTrimList body) ++ "</code></pre>".data ∧
        (s = "\x7bcode:".data ++ lang ++ '\x7d' :: body ++ "\x7b/code\x7d".data ++ after ∨
         (lang = "text".data ∧
          s = "\x7bcode\x7d".data ++ body ++ "\x7b/code\x7d".data ++ after))) ∧
    parseBacklogWiki "\x7bcode:js\x7dx=1\x7b/code\x7d" =
      "<pre class=\"backlog-code-block\"><code class=\"language-js\">x=1</code></pre>" := by
  constructor
  · intro s out after h
    unfold pcbTryMatch at h
    by_cases hp : "\x7bcode".data.isPrefixOf s = true
    case neg => rw [if_neg hp] at h; cases h
    rw [if_pos hp] at h
    obtain ⟨tail, htail⟩ := List.isPrefixOf_iff_prefix.mp hp
    have hdrop : s.drop 5 = tail := by
      rw [← htail]
      exact List.drop_left' (by decide)
    rw [hdrop] at h
    split at h
    · rename_i lang r3 hh
      split at h
      · rename_i body after2 hf
        injection h with h2
        rw [Prod.mk.injEq] at h2
        obtain ⟨hout, hafter⟩ := h2
        rw [← hafter]
        refine ⟨lang, body, hout.symm, ?_⟩
        have hr3 : r3 = body ++ "\x7b/code\x7d".data ++ after2 := findSub_eq hf
        rcases pcbHeader_eq_some hh with ⟨r, hx, hlang, hdw⟩ | ⟨hx, hlang⟩
        · left
          have hr : r = lang ++ '\x7d' :: r3 := by
            conv =>
              lhs
              rw [← List.takeWhile_append_dropWhile (p := isWordChar) (l := r)]
            rw [hdw, ← hlang]
          rw [← htail, hx, hr, hr3]
          simp [List.append_assoc,
            show ∀ X : List Char, "\x7bcode".data ++ ':' :: X = "\x7bcode:".data ++ X
              from fun X => rfl]
        · right
          refine ⟨hlang, ?_⟩
          rw [← htail, hx, hr3]
          simp [List.append_assoc,
            show ∀ X : List Char, "\x7bcode".data ++ '\x7d' :: X = "\x7bcode\x7d".data ++ X
              from fun X => rfl]
      · cases h
    · cases h
  · decide

/-- C7 witness: the decomposition statement applied at the concrete
match `\x7bcode:js\x7dx=1\x7b/code\x7d`, whose match hypothesis holds
by computation. -/
theorem claim7_witness :
    ∃ lang body,
      "<pre class=\"backlog-code-block\"><code class=\"language-js\">x=1</code></pre>".data =
        "<pre class=\"backlog-code-block\"><code class=\"language-".data ++ lang ++
          "\">".data ++ escapeHtmlList (jsTrimList body) ++ "</code></pre>".data ∧
      ("\x7bcode:js\x7dx=1\x7b/code\x7d".data =
        "\x7bcode:".data ++ lang ++ '\x7d' :: body ++ "\x7b/code\x7d".data ++ ([] : List Char) ∨
       (lang = "text".data ∧
        "\x7bcode:js\x7dx=1\x7b/code\x7d".data =
          "\x7bcode\x7d".data ++ body ++ "\x7b/code\x7d".data ++ ([] : List Char))) :=
  claim7_theorem.1 "\x7bcode:js\x7dx=1\x7b/code\x7d".data
    "<pre class=\"backlog-code-block\"><code class=\"language-js\">x=1</code></pre>".data
    [] (by decide)

/-- C6 counterexample: the claim says a no-markup input round-trips
with each non-blank line wrapped and otherwise unchanged; the line
` a` has no markup yet its leading space is removed by the table
stage, so the original line text does not occur in the output. -/
theorem claim6_counterexample :
    parseBacklogWiki " a" = "<p class=\"backlog-paragraph\">a</p>" ∧
    containsSub " a".data "<p class=\"backlog-paragraph\">a</p>".data = false := by
  exact ⟨by decide, by decide⟩

/-- C6 amended: for an input with no recognized markup constructs the
output equals the input with each line whitespace-trimmed, each
trimmed non-blank line wrapped in a paragraph tag and each blank line
replaced by the spacer element. -/
theorem claim6_theorem : ∀ s : String,
    (∀ l ∈ splitChar '\n' s.data,
       isHeaderLine (jsTrimList l) = false ∧ isDataLine (jsTrimList l) = false ∧
       containsSub "\x7bcode".data (jsTrimList l) = false ∧
       containsSub "&code(".data (jsTrimList l) = false ∧
       containsSub "**".data (jsTrimList l) = false ∧
       "# ".data.isPrefixOf (jsTrimList l) = false ∧
       "## ".data.isPrefixOf (jsTrimList l) = false ∧
       "### ".data.isPrefixOf (jsTrimList l) = false ∧
       "- ".data.isPrefixOf (jsTrimList l) = false ∧
       "<".data.isPrefixOf (jsTrimList l) = false) →
    (parseBacklogWiki s).data =
      joinLines ((splitChar '\n' s.data).map fun l =>
        if jsTrimList l = [] then spacerDiv
        else "<p class=\"backlog-paragraph\">".data ++ jsTrimList l ++ "</p>".data) := by
  intro s hyp
  show parseBacklogWikiList s.data = _
  unfold parseBacklogWikiList
  have htab : parseTableList s.data =
      joinLines ((splitChar '\n' s.data).map jsTrimList) := by
    unfold parseTableList
    rw [parseTableGo_passthrough _ (fun l hl => ⟨(hyp l hl).1, (hyp l hl).2.1⟩)]
  rw [htab]
  have hmnl : ∀ m ∈ (splitChar '\n' s.data).map jsTrimList, '\n' ∉ m := by
    intro m hm
    obtain ⟨l, hl, hlm⟩ := List.mem_map.mp hm
    intro hx
    exact mem_splitChar_not_sep '\n' s.data l hl (mem_jsTrimList (hlm ▸ hx))
  have hmne : (splitChar '\n' s.data).map jsTrimList ≠ [] := by
    intro hcon
    rw [List.map_eq_nil_iff] at hcon
    exact splitChar_ne_nil '\n' s.data hcon
  have hm3 : ∀ m ∈ (splitChar '\n' s.data).map jsTrimList,
      containsSub "\x7bcode".data m = false := by
    intro m hm
    obtain ⟨l, hl, hlm⟩ := List.mem_map.mp hm
    exact hlm ▸ (hyp l hl).2.2.1
  have hm4 : ∀ m ∈ (splitChar '\n' s.data).map jsTrimList,
      containsSub "&code(".data m = false := by
    intro m hm
    obtain ⟨l, hl, hlm⟩ := List.mem_map.mp hm
    exact hlm ▸ (hyp l hl).2.2.2.1
  have hcb : parseCodeBlockList (joinLines ((splitChar '\n' s.data).map jsTrimList)) =
      joinLines ((splitChar '\n' s.data).map jsTrimList) :=
    replScanF_id pcbTryMatch_prefix _ _
      (containsSub_joinLines (by decide) (by decide) _ hm3)
  have hic : parseInlineCodeList (joinLines ((splitChar '\n' s.data).map jsTrimList)) =
      joinLines ((splitChar '\n' s.data).map jsTrimList) :=
    replScanF_id icTryMatch_prefix _ _
      (containsSub_joinLines (by decide) (by decide) _ hm4)
  rw [hcb, hic]
  unfold parseBasicMarkdownList
  rw [splitChar_joinLines _ hmnl hmne]
  congr 1
  rw [List.map_map]
  refine List.map_congr_left (fun l hl => ?_)
  have h := hyp l hl
  simpa using markdownLine_plain l h.2.2.2.2.1 h.2.2.2.2.2.1 h.2.2.2.2.2.2.1
    h.2.2.2.2.2.2.2.1 h.2.2.2.2.2.2.2.2.1 h.2.2.2.2.2.2.2.2.2

/-- C6 witness: the no-markup statement at the concrete plain input
`hi`, whose per-line hypotheses hold by computation. -/
theorem claim6_witness :
    (parseBacklogWiki "hi").data =
      joinLines ((splitChar '\n' "hi".data).map fun l =>
        if jsTrimList l = [] then spacerDiv
        else "<p class=\"backlog-paragraph\">".data ++ jsTrimList l ++ "</p>".data) :=
  claim6_theorem "hi" (by decide)

end BacklogWiki
